import Mathlib

/-!
Verification of the window-chunked OCR orchestrator, merge engine and
persistence layer of the mistral-ocr-pipeline repository.

The Python sources are shallowly embedded below:
 - JSON-like values and dicts (`Value`, `Record`) with the merge logic of
   utils/utils.py (`_merge_values_async`, `merge_multiple_dicts_async`);
 - the page-window loop of main.py (`process_one_pdf`);
 - the tenacity retry policy of get_annotations.py;
 - the schema coercion of utils/utils.py (`table_cast_like`, ParquetAppender);
 - the references-heading regex and `get_pdf_page_count` of utils/utils.py.
-/

set_option autoImplicit false

namespace OcrPipeline

/-! ## JSON-like values (the shapes handled by `_merge_values_async`) -/

/-- A JSON-like Python value: None, bool, int, string, list, or dict
(dicts are insertion-ordered association lists, as in Python). -/
inductive Value where
  | vnull : Value
  | vbool : Bool → Value
  | vint : Int → Value
  | vstr : String → Value
  | vlist : List Value → Value
  | vmap : List (String × Value) → Value

/-- A Python dict with string keys, in insertion order. -/
abbrev Record := List (String × Value)

mutual

/-- Structural equality of values (Python compares list elements by
value; `repr`-key equality in the dedup loop coincides with it). -/
def decEqV : (a b : Value) → Decidable (a = b)
  | .vnull, .vnull => isTrue rfl
  | .vnull, .vbool _ => isFalse (fun h => Value.noConfusion h)
  | .vnull, .vint _ => isFalse (fun h => Value.noConfusion h)
  | .vnull, .vstr _ => isFalse (fun h => Value.noConfusion h)
  | .vnull, .vlist _ => isFalse (fun h => Value.noConfusion h)
  | .vnull, .vmap _ => isFalse (fun h => Value.noConfusion h)
  | .vbool _, .vnull => isFalse (fun h => Value.noConfusion h)
  | .vbool a, .vbool b =>
    if h : a = b then isTrue (by rw [h]) else
      isFalse (fun hh => h (by injection hh))
  | .vbool _, .vint _ => isFalse (fun h => Value.noConfusion h)
  | .vbool _, .vstr _ => isFalse (fun h => Value.noConfusion h)
  | .vbool _, .vlist _ => isFalse (fun h => Value.noConfusion h)
  | .vbool _, .vmap _ => isFalse (fun h => Value.noConfusion h)
  | .vint _, .vnull => isFalse (fun h => Value.noConfusion h)
  | .vint _, .vbool _ => isFalse (fun h => Value.noConfusion h)
  | .vint a, .vint b =>
    if h : a = b then isTrue (by rw [h]) else
      isFalse (fun hh => h (by injection hh))
  | .vint _, .vstr _ => isFalse (fun h => Value.noConfusion h)
  | .vint _, .vlist _ => isFalse (fun h => Value.noConfusion h)
  | .vint _, .vmap _ => isFalse (fun h => Value.noConfusion h)
  | .vstr _, .vnull => isFalse (fun h => Value.noConfusion h)
  | .vstr _, .vbool _ => isFalse (fun h => Value.noConfusion h)
  | .vstr _, .vint _ => isFalse (fun h => Value.noConfusion h)
  | .vstr a, .vstr b =>
    if h : a = b then isTrue (by rw [h]) else
      isFalse (fun hh => h (by injection hh))
  | .vstr _, .vlist _ => isFalse (fun h => Value.noConfusion h)
  | .vstr _, .vmap _ => isFalse (fun h => Value.noConfusion h)
  | .vlist _, .vnull => isFalse (fun h => Value.noConfusion h)
  | .vlist _, .vbool _ => isFalse (fun h => Value.noConfusion h)
  | .vlist _, .vint _ => isFalse (fun h => Value.noConfusion h)
  | .vlist _, .vstr _ => isFalse (fun h => Value.noConfusion h)
  | .vlist xs, .vlist ys =>
    match decEqL xs ys with
    | isTrue h => isTrue (by rw [h])
    | isFalse h => isFalse (fun hh => h (by injection hh))
  | .vlist _, .vmap _ => isFalse (fun h => Value.noConfusion h)
  | .vmap _, .vnull => isFalse (fun h => Value.noConfusion h)
  | .vmap _, .vbool _ => isFalse (fun h => Value.noConfusion h)
  | .vmap _, .vint _ => isFalse (fun h => Value.noConfusion h)
  | .vmap _, .vstr _ => isFalse (fun h => Value.noConfusion h)
  | .vmap _, .vlist _ => isFalse (fun h => Value.noConfusion h)
  | .vmap m1, .vmap m2 =>
    match decEqM m1 m2 with
    | isTrue h => isTrue (by rw [h])
    | isFalse h => isFalse (fun hh => h (by injection hh))

def decEqL : (xs ys : List Value) → Decidable (xs = ys)
  | [], [] => isTrue rfl
  | [], _ :: _ => isFalse (fun h => List.noConfusion h)
  | _ :: _, [] => isFalse (fun h => List.noConfusion h)
  | x :: xs, y :: ys =>
    match decEqV x y with
    | isFalse h1 => isFalse (fun hh => h1 (by injection hh))
    | isTrue h1 =>
      match decEqL xs ys with
      | isTrue h2 => isTrue (by rw [h1, h2])
      | isFalse h2 => isFalse (fun hh => h2 (by injection hh))

def decEqM : (m1 m2 : List (String × Value)) → Decidable (m1 = m2)
  | [], [] => isTrue rfl
  | [], _ :: _ => isFalse (fun h => List.noConfusion h)
  | _ :: _, [] => isFalse (fun h => List.noConfusion h)
  | (k1, v1) :: m1, (k2, v2) :: m2 =>
    if hk : k1 = k2 then
      match decEqV v1 v2 with
      | isFalse h1 =>
        isFalse (fun hh => by
          injection hh with hp _
          exact h1 (congrArg Prod.snd hp))
      | isTrue h1 =>
        match decEqM m1 m2 with
        | isTrue h2 => isTrue (by rw [hk, h1, h2])
        | isFalse h2 => isFalse (fun hh => h2 (by injection hh))
    else
      isFalse (fun hh => by
        injection hh with hp _
        exact hk (congrArg Prod.fst hp))

end

instance : DecidableEq Value := decEqV

/-- Python whitespace characters (the ASCII part of `\s` / `str.strip`). -/
def isPySpace (c : Char) : Bool :=
  c = ' ' || c = '\t' || c = '\n' || c = '\r' || c = '\x0b' || c = '\x0c'

/-- Python `str.strip()`: drop whitespace from both ends. -/
def pyStrip (s : String) : String :=
  ⟨(((s.data.dropWhile isPySpace).reverse.dropWhile isPySpace).reverse)⟩

/-- `_normalize_str`: strip strings, leave every other value unchanged. -/
def normalizeV : Value → Value
  | .vstr s => .vstr (pyStrip s)
  | .vnull => .vnull
  | .vbool b => .vbool b
  | .vint n => .vint n
  | .vlist xs => .vlist xs
  | .vmap m => .vmap m

/-- `_is_empty`: `v in (None, "", [], {})`. -/
def isEmptyV : Value → Bool
  | .vnull => true
  | .vstr s => s = ""
  | .vlist xs => xs.isEmpty
  | .vmap m => m.isEmpty
  | .vbool _ => false
  | .vint _ => false

def isListV : Value → Bool
  | .vnull => false
  | .vbool _ => false
  | .vint _ => false
  | .vstr _ => false
  | .vlist _ => true
  | .vmap _ => false

def isMapV : Value → Bool
  | .vnull => false
  | .vbool _ => false
  | .vint _ => false
  | .vstr _ => false
  | .vlist _ => false
  | .vmap _ => true

/-- The duplicate-removal loop of `_merge_values_async` (seen-set plus
output list, keeping the first occurrence of each element). -/
def dedupeAux (seen : List Value) : List Value → List Value
  | [] => []
  | x :: rest =>
    if x ∈ seen then dedupeAux seen rest
    else x :: dedupeAux (x :: seen) rest

def dedupe (xs : List Value) : List Value := dedupeAux [] xs

/-- Python dict lookup (first matching key; Python dicts have unique keys). -/
def lookupAssoc : Record → String → Option Value
  | [], _ => none
  | (k', v') :: rest, k => if k' = k then some v' else lookupAssoc rest k

/-- Python dict update of an existing key: value replaced in place. -/
def updateAssoc : Record → String → Value → Record
  | [], _, _ => []
  | (k', v') :: rest, k, v =>
    if k' = k then (k', v) :: rest else (k', v') :: updateAssoc rest k v

/-- Python `d[k] = v`: update if the key is present, else append. -/
def dictInsert (m : Record) (k : String) (v : Value) : Record :=
  if (lookupAssoc m k).isSome then updateAssoc m k v else m ++ [(k, v)]

/-! ## The merge engine (`_merge_values_async` / `merge_multiple_dicts_async`)

`_merge_values_async a b` normalizes both arguments, returns `b` when `a`
is empty, unions lists, recursively merges dicts, and otherwise keeps `a`.
`mergeTwoMaps` is the inner dict loop of `merge_multiple_dicts_async`
(fold the entries of the second dict into the first). -/

mutual

def mergeValues (a b : Value) : Value :=
  if isEmptyV (normalizeV a) then normalizeV b
  else
    match a, b with
    | .vlist xs, .vlist ys => .vlist (dedupe (xs ++ ys))
    | .vmap m1, .vmap m2 => .vmap (mergeTwoMaps m1 m2)
    | _, _ => normalizeV a
termination_by sizeOf b

def mergeTwoMaps (m1 : Record) (m2 : Record) : Record :=
  match m2 with
  | [] => m1
  | (k, v) :: rest =>
    match lookupAssoc m1 k with
    | none => mergeTwoMaps (m1 ++ [(k, v)]) rest
    | some old => mergeTwoMaps (updateAssoc m1 k (mergeValues old v)) rest
termination_by sizeOf m2

end

/-- `merge_multiple_dicts_async`: left fold of the dict-merge loop over the
remaining dicts (the one-element case returns a copy of that dict). -/
def merge_multiple_dicts (ds : List Record) : Record :=
  match ds with
  | [] => []
  | d :: rest => rest.foldl mergeTwoMaps d

/-! ## Window planning (main.py `process_one_pdf`)

The chunk loop is `for start in range(0, pages, MAX_PAGES_PER_REQ):
end = min(start + MAX_PAGES_PER_REQ, pages)`, each chunk receiving the
half-open page window `[start, end)`. -/

def MAX_PAGES_PER_REQ : Nat := 8

/-- The window loop from a given start page (Python `range(0, P, W)` with
the per-iteration `end = min(start + W, P)`). -/
def planFrom (start P W : Nat) : List (Nat × Nat) :=
  if _h : start < P ∧ 0 < W then
    (start, min (start + W) P) :: planFrom (start + W) P W
  else []
termination_by P - start
decreasing_by
  obtain ⟨h1, h2⟩ := _h
  omega

/-- All page windows planned for a document of `P` pages with maximal
window size `W`. -/
def planWindows (P W : Nat) : List (Nat × Nat) := planFrom 0 P W

/-! ## The per-document orchestration (main.py `process_one_pdf`)

External effects are parameters of the model:
 - `ann start` is the outcome of `run_all_payloads` for the chunk starting
   at page `start` (`none` when the call raised and the chunk returns None);
 - `completion` is the order in which `asyncio.as_completed` yields the
   chunk tasks, given as the list of chunk start pages. -/

/-- The dict built by `process_one_pdf_chunk`:
`{"__chunk_start__": chunk_start, **(row or {})}`. -/
def chunkDict (start : Nat) (row : Record) : Record :=
  row.foldl (fun acc kv => dictInsert acc kv.1 kv.2)
    [("__chunk_start__", Value.vint start)]

/-- `process_one_pdf_chunk`: None when the OCR call failed, otherwise the
annotations row tagged with its chunk start. -/
def process_one_pdf_chunk (start : Nat) (ann : Nat → Option Record) :
    Option Record :=
  (ann start).map (fun row => chunkDict start row)

/-- The sort key `d.get("__chunk_start__", 10**3)` used on chunk results. -/
def chunkStartKey (r : Record) : Int :=
  match lookupAssoc r "__chunk_start__" with
  | some (.vint n) => n
  | _ => 1000

/-- Stable insertion into a list sorted by `chunkStartKey` (a new element
goes after existing elements with the same key, as in Python's stable
`list.sort`). -/
def insertSorted (r : Record) : List Record → List Record
  | [] => [r]
  | x :: xs =>
    if chunkStartKey r < chunkStartKey x then r :: x :: xs
    else x :: insertSorted r xs

/-- `chunk_results.sort(key=lambda d: d.get("__chunk_start__", 10**3))`:
a stable sort by chunk start. -/
def sortByStart (l : List Record) : List Record :=
  l.foldl (fun acc r => insertSorted r acc) []

/-- `{k: v for k, v in d.items() if k != "__chunk_start__"}`. -/
def stripChunkKey (r : Record) : Record :=
  r.filter (fun kv => kv.1 ≠ "__chunk_start__")

/-- `process_one_pdf` for a document whose planned page count is `pages`
and whose name fingerprint is `fp`.  `Except.error` models an uncaught
Python exception; `Except.ok none` models returning None (document skipped,
nothing persisted); `Except.ok (some r)` is the merged record that `amain`
appends to both sinks. -/
def process_one_pdf (pages : Nat) (fp : String) (ann : Nat → Option Record)
    (completion : List Nat) : Except String (Option Record) :=
  if pages = 0 then .ok none
  else if pages ≤ MAX_PAGES_PER_REQ then
    match process_one_pdf_chunk 0 ann with
    | none => .error "AttributeError: NoneType object has no attribute items"
    | some r =>
      .ok (some (dictInsert (stripChunkKey r) "__source_file__" (.vstr fp)))
  else
    let collected := completion.filterMap (fun s => process_one_pdf_chunk s ann)
    let rows := (sortByStart collected).map stripChunkKey
    let merged := merge_multiple_dicts rows
    .ok (some (dictInsert merged "__source_file__" (.vstr fp)))

/-! ## Retry policy (get_annotations.py `_get_annotation_sync`)

The decorator is `retry(reraise=True, stop=stop_after_attempt(5),
wait=wait_exponential(multiplier=1, min=4, max=60),
retry=retry_if_exception(_is_rate_limit))` and the body catches every
exception, re-raising rate-limit errors and returning the sentinel None
for everything else. -/

/-- One behaviour step of the external service on a given attempt:
either a response, or an exception that `_is_rate_limit` classifies. -/
inductive ServiceStep (α : Type) where
  | ok : α → ServiceStep α
  | exn : Bool → ServiceStep α

/-- tenacity `wait_exponential(multiplier, min, max)` after a failed
attempt number `n`: `max(max(0, min), min(multiplier * 2^n, max))`. -/
def waitExponential (multiplier minW maxW n : Nat) : Nat :=
  max (max 0 minW) (min (multiplier * 2 ^ n) maxW)

/-- The retry loop from attempt number `attempt` (attempts are numbered
from 1): returns the number of the last attempt made, the list of backoff
delays taken, and either the body's return value or (`Except.error`) the
re-raised exception once `stop_after_attempt 5` is hit.  A non-rate-limit
exception is swallowed by the body, which returns the sentinel None. -/
def retryFrom {α : Type} (behavior : Nat → ServiceStep α) (attempt : Nat) :
    Nat × List Nat × Except Unit (Option α) :=
  match behavior attempt with
  | .ok r => (attempt, [], .ok (some r))
  | .exn false => (attempt, [], .ok none)
  | .exn true =>
    if h : 5 ≤ attempt then (attempt, [], .error ())
    else
      let rec_ := retryFrom behavior (attempt + 1)
      (rec_.1, waitExponential 1 4 60 attempt :: rec_.2.1, rec_.2.2)
termination_by 5 - attempt
decreasing_by omega

/-- `_get_annotation_sync` under the tenacity decorator, starting at
attempt number 1. -/
def getAnnotationSync {α : Type} (behavior : Nat → ServiceStep α) :
    Nat × List Nat × Except Unit (Option α) :=
  retryFrom behavior 1

/-! ## Columnar-sink schema coercion (utils/utils.py `table_cast_like`
and `ParquetAppender.append`)

Arrow is a collaborator: a column is its declared type plus a list of
cells (`none` is an Arrow null), and `cast` is an external operation that
may fail (`none` models the raised exception caught by `table_cast_like`). -/

/-- The Arrow types distinguished by `table_cast_like`. -/
inductive AType where
  | tnull : AType
  | tint : AType
  | tstr : AType
  | tlist : AType → AType
  | tlargelist : AType → AType
deriving DecidableEq

/-- `_is_null_type`: null, or a (large) list whose value type is null. -/
def isNullType : AType → Bool
  | .tnull => true
  | .tlist t => isNullType t
  | .tlargelist t => isNullType t
  | .tint => false
  | .tstr => false

/-- An Arrow column: a declared type and cells (`none` = null cell). -/
structure Column (α : Type) where
  ctype : AType
  cells : List (Option α)
deriving DecidableEq

/-- `pa.nulls(n, type=t)`. -/
def nullsCol (α : Type) (n : Nat) (t : AType) : Column α :=
  ⟨t, List.replicate n none⟩

/-- Column lookup by name (`name in table.column_names` / `table[name]`). -/
def lookupCol {α : Type} : List (String × Column α) → String → Option (Column α)
  | [], _ => none
  | (k, c) :: rest, k' => if k = k' then some c else lookupCol rest k'

/-- `table_cast_like`: build one column per target field, in target order.
`castFn` is Arrow's `ChunkedArray.cast` (`none` when it raises; the code
then keeps the original column unchanged).  `n` is `len(table)`. -/
def tableCastLike {α : Type} (castFn : Column α → AType → Option (Column α))
    (cols : List (String × Column α)) (n : Nat)
    (target : List (String × AType)) : List (String × Column α) :=
  target.map (fun field =>
    match lookupCol cols field.1 with
    | some col =>
      if isNullType field.2 then (field.1, nullsCol α n field.2)
      else
        match castFn col field.2 with
        | some c => (field.1, c)
        | none => (field.1, col)
    | none => (field.1, nullsCol α n field.2))

/-- `ParquetAppender` state: the established schema (None before the first
append on a fresh file) and the tables written so far. -/
structure PAState (α : Type) where
  schema : Option (List (String × AType))
  written : List (List (String × Column α))

/-- `ParquetAppender.append` on a fresh file: the first row establishes
the schema from its own columns; every later row is passed through
`table_cast_like` against that schema. -/
def paAppend {α : Type} (castFn : Column α → AType → Option (Column α))
    (st : PAState α) (row : List (String × Column α)) (n : Nat) : PAState α :=
  match st.schema with
  | none =>
    { schema := some (row.map (fun kc => (kc.1, kc.2.ctype)))
      written := st.written ++ [row] }
  | some s =>
    { schema := some s
      written := st.written ++ [tableCastLike castFn row n s] }

/-! ## References-heading detection (utils/utils.py `REF_HEADER_RE` and
`get_pdf_page_count`)

The regex is `(?i)^\s*(references?|bibliography|works\s+cited)\s*:?\s*$`
compiled with `re.MULTILINE`, searched against each page's extracted text.
The matcher below follows the regex literal by literal (`^` matches at the
start and after each newline; `$` matches at the end and before a newline;
only the ASCII whitespace class is modelled). -/

/-- The tail `\s*:?\s*$` of the header regex, with at most one colon:
at every point the match may stop at a line end, consume whitespace, or
consume the single optional colon. -/
def wsColonEnd (colonSeen : Bool) : List Char → Bool
  | [] => true
  | c :: rest =>
    c = '\n' || (isPySpace c && wsColonEnd colonSeen rest)
      || (!colonSeen && c = ':' && wsColonEnd true rest)

/-- Case-insensitive literal match, returning the rest of the input
(the pattern is given in lowercase). -/
def stripCI : List Char → List Char → Option (List Char)
  | [], cs => some cs
  | _ :: _, [] => none
  | p :: ps, c :: cs => if c.toLower = p then stripCI ps cs else none

/-- Try the header alternatives `references?|bibliography|works\s+cited`
followed by `\s*:?\s*$`, after the leading `\s*`, at one `^` position. -/
def refHeaderAt (cs0 : List Char) : Bool :=
  let cs := cs0.dropWhile isPySpace
  (match stripCI "reference".data cs with
   | some rest =>
     (match rest with
      | c :: rest' =>
        (c.toLower = 's' && wsColonEnd false rest') || wsColonEnd false rest
      | [] => true)
   | none => false)
  || (match stripCI "bibliography".data cs with
      | some rest => wsColonEnd false rest
      | none => false)
  || (match stripCI "works".data cs with
      | some rest =>
        match rest with
        | c :: _ =>
          isPySpace c &&
            (match stripCI "cited".data (rest.dropWhile isPySpace) with
             | some rest2 => wsColonEnd false rest2
             | none => false)
        | [] => false
      | none => false)

/-- The suffixes of the text that start right after a newline (the `^`
positions of `re.MULTILINE` other than the start). -/
def lineStarts : List Char → List (List Char)
  | [] => []
  | c :: rest =>
    if c = '\n' then rest :: lineStarts rest else lineStarts rest

/-- `REF_HEADER_RE.search(txt)`: does the header pattern match at the
start of the text or after any newline? -/
def refHeaderSearch (s : String) : Bool :=
  refHeaderAt s.data || (lineStarts s.data).any refHeaderAt

/-- `get_pdf_page_count`: scan the extracted texts page by page and
return the index of the first page whose text matches the references
header; if none matches, return the number of pages.
(`List.findIdx` returns the length when no element satisfies the
predicate, exactly like the Python loop's fallthrough.) -/
def get_pdf_page_count (pageTexts : List String) : Nat :=
  pageTexts.findIdx refHeaderSearch

/-! ## Well-formedness and normality predicates

`keysNodupB` states that a record has pairwise distinct keys, which every
Python dict satisfies.  `wfValue` extends this to nested dicts.
`normalValue` states that a value is a fixed point of the merge's
normalizations: strings are already stripped, lists are duplicate-free,
nested dicts are well-formed with normal values. -/

def keysNodupB : Record → Bool
  | [] => true
  | (k, _) :: rest => !(rest.any (fun kv => kv.1 == k)) && keysNodupB rest

mutual

def wfValue : Value → Bool
  | .vmap m => keysNodupB m && wfVals m
  | .vnull => true
  | .vbool _ => true
  | .vint _ => true
  | .vstr _ => true
  | .vlist _ => true

def wfVals : Record → Bool
  | [] => true
  | (_, v) :: rest => wfValue v && wfVals rest

end

mutual

def normalValue : Value → Bool
  | .vstr s => pyStrip s == s
  | .vlist xs => decide (dedupe xs = xs)
  | .vmap m => keysNodupB m && normalVals m
  | .vnull => true
  | .vbool _ => true
  | .vint _ => true

def normalVals : Record → Bool
  | [] => true
  | (_, v) :: rest => normalValue v && normalVals rest

end

/-! ## Unfolding lemmas for the merge engine -/

theorem mergeValues_empty (a b : Value) (h : isEmptyV (normalizeV a) = true) :
    mergeValues a b = normalizeV b := by
  cases a <;> cases b <;> rw [mergeValues] <;> simp_all [normalizeV, isEmptyV]

theorem mergeValues_lists (xs ys : List Value) (h : xs ≠ []) :
    mergeValues (.vlist xs) (.vlist ys) = .vlist (dedupe (xs ++ ys)) := by
  rw [mergeValues]
  simp [normalizeV, isEmptyV, h]

theorem mergeValues_maps (m1 m2 : Record) (h : m1 ≠ []) :
    mergeValues (.vmap m1) (.vmap m2) = .vmap (mergeTwoMaps m1 m2) := by
  rw [mergeValues]
  simp [normalizeV, isEmptyV, h]

theorem mergeValues_default (a b : Value) (h : isEmptyV (normalizeV a) = false)
    (h1 : ¬(isListV a = true ∧ isListV b = true))
    (h2 : ¬(isMapV a = true ∧ isMapV b = true)) :
    mergeValues a b = normalizeV a := by
  cases a <;> cases b <;> rw [mergeValues] <;>
    simp_all [normalizeV, isEmptyV, isListV, isMapV]

theorem mergeTwoMaps_nil (m1 : Record) : mergeTwoMaps m1 [] = m1 := by
  rw [mergeTwoMaps]

theorem mergeTwoMaps_cons_new (m1 rest : Record) (k : String) (v : Value)
    (h : lookupAssoc m1 k = none) :
    mergeTwoMaps m1 ((k, v) :: rest) = mergeTwoMaps (m1 ++ [(k, v)]) rest := by
  rw [mergeTwoMaps]
  simp [h]

theorem mergeTwoMaps_cons_old (m1 rest : Record) (k : String) (v old : Value)
    (h : lookupAssoc m1 k = some old) :
    mergeTwoMaps m1 ((k, v) :: rest)
      = mergeTwoMaps (updateAssoc m1 k (mergeValues old v)) rest := by
  rw [mergeTwoMaps]
  simp [h]

/-! ## `pyStrip` is idempotent -/

theorem dropWhile_dropWhile (p : Char → Bool) (l : List Char) :
    List.dropWhile p (List.dropWhile p l) = List.dropWhile p l := by
  induction l with
  | nil => simp
  | cons a t ih =>
    by_cases h : p a
    · simp [List.dropWhile_cons, h, ih]
    · simp [List.dropWhile_cons, h]

theorem dropWhile_isSuffix (p : Char → Bool) (l : List Char) :
    List.dropWhile p l <:+ l := by
  induction l with
  | nil => simp
  | cons a t ih =>
    by_cases h : p a
    · simp only [List.dropWhile_cons, h, if_true]
      exact ih.trans (List.suffix_cons a t)
    · simp [List.dropWhile_cons, h]

theorem dropWhile_head_not (p : Char → Bool) (l : List Char) :
    List.dropWhile p l = [] ∨
      ∃ a t, List.dropWhile p l = a :: t ∧ p a = false := by
  induction l with
  | nil => simp
  | cons a t ih =>
    by_cases h : p a
    · simpa [List.dropWhile_cons, h] using ih
    · right
      exact ⟨a, t, by simp [List.dropWhile_cons, h], by simp [h]⟩

theorem trim_list_idem (p : Char → Bool) (l : List Char) :
    (((((((l.dropWhile p).reverse.dropWhile p).reverse).dropWhile p).reverse).dropWhile p).reverse)
      = ((l.dropWhile p).reverse.dropWhile p).reverse := by
  set A := l.dropWhile p with hA
  set B := A.reverse.dropWhile p with hB
  have hTB : B.reverse.reverse = B := by simp
  have hstep1 : B.reverse.dropWhile p = B.reverse := by
    rcases dropWhile_head_not p l with hnil | ⟨a, t, hcons, hpa⟩
    · rw [← hA] at hnil
      rw [hB, hnil]
      simp
    · rw [← hA] at hcons
      have hpre : B.reverse <+: A := by
        have hsuf : B <:+ A.reverse := hB ▸ dropWhile_isSuffix p A.reverse
        have h2 := (@List.reverse_prefix Char B A.reverse).mpr hsuf
        rw [List.reverse_reverse] at h2
        exact h2
      rcases hpre with ⟨r, hr⟩
      cases hrev : B.reverse with
      | nil => simp
      | cons b t' =>
        rw [hrev] at hr
        rw [hcons] at hr
        have hba : b = a := by
          have := List.head_eq_of_cons_eq hr
          exact this
        rw [List.dropWhile_cons, hba, hpa]
        simp
  have hstep2 : List.dropWhile p B = B := by
    rw [hB]
    exact dropWhile_dropWhile p A.reverse
  calc ((((B.reverse.dropWhile p).reverse).dropWhile p).reverse)
      = ((B.reverse.reverse.dropWhile p).reverse) := by rw [hstep1]
    _ = ((B.dropWhile p).reverse) := by rw [hTB]
    _ = B.reverse := by rw [hstep2]

theorem pyStrip_idem (s : String) : pyStrip (pyStrip s) = pyStrip s := by
  unfold pyStrip
  exact congrArg String.mk (trim_list_idem isPySpace s.data)

/-! ## `normalizeV` facts -/

theorem normalizeV_idem (v : Value) : normalizeV (normalizeV v) = normalizeV v := by
  cases v <;> simp [normalizeV, pyStrip_idem]

theorem isListV_normalizeV (v : Value) : isListV (normalizeV v) = isListV v := by
  cases v <;> simp [normalizeV, isListV]

theorem isMapV_normalizeV (v : Value) : isMapV (normalizeV v) = isMapV v := by
  cases v <;> simp [normalizeV, isMapV]

theorem normalizeV_of_normal (v : Value) (h : normalValue v = true) :
    normalizeV v = v := by
  cases v <;> simp_all [normalValue, normalizeV]

/-! ## `dedupe` facts -/

theorem mem_dedupeAux (seen l : List Value) (x : Value) :
    x ∈ dedupeAux seen l ↔ (x ∈ l ∧ x ∉ seen) := by
  induction l generalizing seen with
  | nil => simp [dedupeAux]
  | cons a t ih =>
    by_cases h : a ∈ seen
    · rw [dedupeAux, if_pos h, ih]
      constructor
      · rintro ⟨hx, hs⟩
        exact ⟨List.mem_cons_of_mem a hx, hs⟩
      · rintro ⟨hx, hs⟩
        rcases List.mem_cons.mp hx with rfl | hx'
        · exact absurd h hs
        · exact ⟨hx', hs⟩
    · rw [dedupeAux, if_neg h]
      constructor
      · intro hmem
        rcases List.mem_cons.mp hmem with rfl | hx'
        · exact ⟨List.mem_cons_self _ _, h⟩
        · obtain ⟨hm, hs⟩ := (ih (a :: seen)).mp hx'
          exact ⟨List.mem_cons_of_mem a hm,
            fun hc => hs (List.mem_cons_of_mem a hc)⟩
      · rintro ⟨hx, hs⟩
        rcases List.mem_cons.mp hx with rfl | hx'
        · exact List.mem_cons_self _ _
        · by_cases hxa : x = a
          · subst hxa
            exact List.mem_cons_self _ _
          · refine List.mem_cons_of_mem a ((ih (a :: seen)).mpr ⟨hx', fun hc => ?_⟩)
            rcases List.mem_cons.mp hc with h1 | h1
            · exact hxa h1
            · exact hs h1

theorem dedupe_mem (xs : List Value) (x : Value) : x ∈ dedupe xs ↔ x ∈ xs := by
  simp [dedupe, mem_dedupeAux]

theorem dedupeAux_nodup (seen l : List Value) : (dedupeAux seen l).Nodup := by
  induction l generalizing seen with
  | nil => simp [dedupeAux]
  | cons a t ih =>
    by_cases h : a ∈ seen
    · rw [dedupeAux, if_pos h]
      exact ih seen
    · rw [dedupeAux, if_neg h]
      refine List.nodup_cons.mpr ⟨fun hc => ?_, ih (a :: seen)⟩
      exact ((mem_dedupeAux (a :: seen) t a).mp hc).2 (List.mem_cons_self a seen)

theorem dedupe_nodup (xs : List Value) : (dedupe xs).Nodup := dedupeAux_nodup [] xs

theorem dedupeAux_eq_self (l : List Value) :
    ∀ seen, l.Nodup → (∀ x ∈ l, x ∉ seen) → dedupeAux seen l = l := by
  induction l with
  | nil => intro seen _ _; rfl
  | cons a t ih =>
    intro seen hnd hdis
    rw [dedupeAux, if_neg (hdis a (List.mem_cons_self a t))]
    congr 1
    refine ih (a :: seen) (List.nodup_cons.mp hnd).2 (fun x hx hc => ?_)
    rcases List.mem_cons.mp hc with rfl | hc'
    · exact (List.nodup_cons.mp hnd).1 hx
    · exact hdis x (List.mem_cons_of_mem a hx) hc'

theorem dedupe_eq_self_of_nodup (xs : List Value) (h : xs.Nodup) :
    dedupe xs = xs :=
  dedupeAux_eq_self xs [] h (by simp)

theorem dedupeAux_nil_of_sub (ys : List Value) :
    ∀ seen, (∀ y ∈ ys, y ∈ seen) → dedupeAux seen ys = [] := by
  induction ys with
  | nil => intro seen _; rfl
  | cons a t ih =>
    intro seen h
    rw [dedupeAux, if_pos (h a (List.mem_cons_self a t))]
    exact ih seen (fun y hy => h y (List.mem_cons_of_mem a hy))

theorem dedupeAux_append_absorb (l ys : List Value) :
    ∀ seen, (∀ y ∈ ys, y ∈ l ∨ y ∈ seen) →
      dedupeAux seen (l ++ ys) = dedupeAux seen l := by
  induction l with
  | nil =>
    intro seen h
    simp only [List.nil_append]
    rw [dedupeAux]
    exact dedupeAux_nil_of_sub ys seen (fun y hy => (h y hy).resolve_left (by simp))
  | cons a t ih =>
    intro seen h
    by_cases ha : a ∈ seen
    · rw [List.cons_append, dedupeAux, if_pos ha, dedupeAux, if_pos ha]
      refine ih seen (fun y hy => ?_)
      rcases h y hy with hl | hs
      · rcases List.mem_cons.mp hl with rfl | hl'
        · exact Or.inr ha
        · exact Or.inl hl'
      · exact Or.inr hs
    · rw [List.cons_append, dedupeAux, if_neg ha, dedupeAux, if_neg ha]
      congr 1
      refine ih (a :: seen) (fun y hy => ?_)
      rcases h y hy with hl | hs
      · rcases List.mem_cons.mp hl with rfl | hl'
        · exact Or.inr (List.mem_cons_self _ _)
        · exact Or.inl hl'
      · exact Or.inr (List.mem_cons_of_mem a hs)

theorem dedupe_absorb (xs ys : List Value) (h : ∀ y ∈ ys, y ∈ xs) :
    dedupe (xs ++ ys) = dedupe xs :=
  dedupeAux_append_absorb xs ys [] (fun y hy => Or.inl (h y hy))

theorem dedupe_dedupe_append (xs ys : List Value) :
    dedupe (dedupe (xs ++ ys) ++ ys) = dedupe (xs ++ ys) := by
  rw [dedupe_absorb _ _ (fun y hy => (dedupe_mem _ y).mpr (List.mem_append_right xs hy))]
  exact dedupe_eq_self_of_nodup _ (dedupe_nodup _)

theorem dedupe_append_ne_nil (xs ys : List Value) (h : xs ≠ []) :
    dedupe (xs ++ ys) ≠ [] := by
  rcases List.exists_cons_of_ne_nil h with ⟨a, t, rfl⟩
  intro hc
  have ha : a ∈ dedupe ((a :: t) ++ ys) := (dedupe_mem _ a).mpr (by simp)
  rw [hc] at ha
  exact (List.not_mem_nil a) ha

theorem dedupe_self_append (xs : List Value) (h : dedupe xs = xs) :
    dedupe (xs ++ xs) = xs := by
  rw [dedupe_absorb xs xs (fun y hy => hy)]
  exact h

/-! ## Association-list (Python dict) facts -/

theorem lookupAssoc_append (m1 m2 : Record) (k : String) :
    lookupAssoc (m1 ++ m2) k = (lookupAssoc m1 k).or (lookupAssoc m2 k) := by
  induction m1 with
  | nil => simp [lookupAssoc]
  | cons kv rest ih =>
    obtain ⟨k', v'⟩ := kv
    by_cases h : k' = k
    · simp [lookupAssoc, h]
    · simp [lookupAssoc, h, ih]

theorem lookupAssoc_update_self (m : Record) (k : String) (v : Value)
    (h : (lookupAssoc m k).isSome) :
    lookupAssoc (updateAssoc m k v) k = some v := by
  induction m with
  | nil => simp [lookupAssoc] at h
  | cons kv rest ih =>
    obtain ⟨k', v'⟩ := kv
    by_cases hk : k' = k
    · simp [updateAssoc, lookupAssoc, hk]
    · rw [updateAssoc, if_neg hk, lookupAssoc, if_neg hk]
      rw [lookupAssoc, if_neg hk] at h
      exact ih h

theorem lookupAssoc_update_ne (m : Record) (k : String) (v : Value)
    (k' : String) (h : k ≠ k') :
    lookupAssoc (updateAssoc m k v) k' = lookupAssoc m k' := by
  induction m with
  | nil => simp [updateAssoc]
  | cons kv rest ih =>
    obtain ⟨k0, v0⟩ := kv
    by_cases hk : k0 = k
    · subst hk
      rw [updateAssoc, if_pos rfl, lookupAssoc, if_neg h, lookupAssoc, if_neg h]
    · rw [updateAssoc, if_neg hk]
      by_cases hk' : k0 = k'
      · rw [lookupAssoc, if_pos hk', lookupAssoc, if_pos hk']
      · rw [lookupAssoc, if_neg hk', lookupAssoc, if_neg hk']
        exact ih

theorem updateAssoc_self (m : Record) (k : String) (w : Value)
    (h : lookupAssoc m k = some w) : updateAssoc m k w = m := by
  induction m with
  | nil => rfl
  | cons kv rest ih =>
    obtain ⟨k0, v0⟩ := kv
    by_cases hk : k0 = k
    · rw [lookupAssoc, if_pos hk] at h
      rw [updateAssoc, if_pos hk]
      injection h with h'
      rw [h']
    · rw [lookupAssoc, if_neg hk] at h
      rw [updateAssoc, if_neg hk, ih h]

theorem lookupAssoc_mem (m : Record) (k : String) (v : Value)
    (h : lookupAssoc m k = some v) : (k, v) ∈ m := by
  induction m with
  | nil => simp [lookupAssoc] at h
  | cons kv rest ih =>
    obtain ⟨k0, v0⟩ := kv
    by_cases hk : k0 = k
    · rw [lookupAssoc, if_pos hk] at h
      injection h with h'
      subst hk
      subst h'
      exact List.mem_cons_self _ _
    · rw [lookupAssoc, if_neg hk] at h
      exact List.mem_cons_of_mem _ (ih h)

theorem keysNodupB_cons (k : String) (v : Value) (rest : Record)
    (h : keysNodupB ((k, v) :: rest) = true) :
    (∀ kv ∈ rest, kv.1 ≠ k) ∧ keysNodupB rest = true := by
  rw [keysNodupB] at h
  simp only [Bool.and_eq_true, Bool.not_eq_true', List.any_eq_false] at h
  refine ⟨fun kv hkv hc => ?_, h.2⟩
  have := h.1 kv hkv
  rw [hc] at this
  simp at this

theorem lookupAssoc_of_mem_nodup (m : Record) (k : String) (v : Value)
    (hnd : keysNodupB m = true) (h : (k, v) ∈ m) :
    lookupAssoc m k = some v := by
  induction m with
  | nil => simp at h
  | cons kv rest ih =>
    obtain ⟨k0, v0⟩ := kv
    obtain ⟨hne, hnd'⟩ := keysNodupB_cons k0 v0 rest hnd
    rcases List.mem_cons.mp h with heq | hmem
    · injection heq with h1 h2
      subst h1
      subst h2
      rw [lookupAssoc, if_pos rfl]
    · have hk : k0 ≠ k := by
        intro hc
        exact hne (k, v) hmem (by rw [hc])
      rw [lookupAssoc, if_neg hk]
      exact ih hnd' hmem

theorem updateAssoc_ne_nil (m : Record) (k : String) (v : Value)
    (h : m ≠ []) : updateAssoc m k v ≠ [] := by
  cases m with
  | nil => exact absurd rfl h
  | cons kv rest =>
    obtain ⟨k0, v0⟩ := kv
    rw [updateAssoc]
    by_cases hk : k0 = k
    · simp [hk]
    · simp [hk]

/-! ## `mergeTwoMaps` characterization -/

theorem lookupAssoc_mergeTwoMaps_not_mem (m2 : Record) (k : String)
    (h : ∀ kv ∈ m2, kv.1 ≠ k) :
    ∀ m1, lookupAssoc (mergeTwoMaps m1 m2) k = lookupAssoc m1 k := by
  induction m2 with
  | nil => intro m1; rw [mergeTwoMaps_nil]
  | cons kv rest ih =>
    intro m1
    obtain ⟨k0, v0⟩ := kv
    have hk0 : k0 ≠ k := h (k0, v0) (List.mem_cons_self _ _)
    have hrest : ∀ kv ∈ rest, kv.1 ≠ k :=
      fun kv hkv => h kv (List.mem_cons_of_mem _ hkv)
    cases hl : lookupAssoc m1 k0 with
    | none =>
      rw [mergeTwoMaps_cons_new m1 rest k0 v0 hl, ih hrest]
      rw [lookupAssoc_append]
      rw [lookupAssoc, if_neg hk0]
      cases lookupAssoc m1 k <;> rfl
    | some old =>
      rw [mergeTwoMaps_cons_old m1 rest k0 v0 old hl, ih hrest]
      exact lookupAssoc_update_ne m1 k0 _ k hk0

theorem lookupAssoc_mergeTwoMaps_mem (m2 : Record)
    (hnd : keysNodupB m2 = true) (k : String) (v : Value)
    (hm : (k, v) ∈ m2) :
    ∀ m1, lookupAssoc (mergeTwoMaps m1 m2) k
      = some (match lookupAssoc m1 k with
              | some old => mergeValues old v
              | none => v) := by
  induction m2 with
  | nil => simp at hm
  | cons kv rest ih =>
    intro m1
    obtain ⟨k0, v0⟩ := kv
    obtain ⟨hne, hnd'⟩ := keysNodupB_cons k0 v0 rest hnd
    rcases List.mem_cons.mp hm with heq | hmem
    · injection heq with h1 h2
      subst h1
      subst h2
      cases hl : lookupAssoc m1 k with
      | none =>
        rw [mergeTwoMaps_cons_new m1 rest k v hl]
        rw [lookupAssoc_mergeTwoMaps_not_mem rest k hne]
        rw [lookupAssoc_append, hl]
        rw [lookupAssoc, if_pos rfl]
        rfl
      | some old =>
        rw [mergeTwoMaps_cons_old m1 rest k v old hl]
        rw [lookupAssoc_mergeTwoMaps_not_mem rest k hne]
        exact lookupAssoc_update_self m1 k _ (by rw [hl]; rfl)
    · have hk0 : k0 ≠ k := fun hc => hne (k, v) hmem (by rw [hc])
      cases hl : lookupAssoc m1 k0 with
      | none =>
        rw [mergeTwoMaps_cons_new m1 rest k0 v0 hl, ih hnd' hmem]
        rw [lookupAssoc_append]
        rw [lookupAssoc, if_neg hk0]
        cases lookupAssoc m1 k <;> rfl
      | some old =>
        rw [mergeTwoMaps_cons_old m1 rest k0 v0 old hl, ih hnd' hmem]
        rw [lookupAssoc_update_ne m1 k0 _ k hk0]

theorem mergeTwoMaps_fixed (m2 M : Record)
    (h : ∀ kv ∈ m2, ∃ w, lookupAssoc M kv.1 = some w ∧ mergeValues w kv.2 = w) :
    mergeTwoMaps M m2 = M := by
  induction m2 with
  | nil => exact mergeTwoMaps_nil M
  | cons kv rest ih =>
    obtain ⟨k, v⟩ := kv
    obtain ⟨w, hw, hmw⟩ := h (k, v) (List.mem_cons_self _ _)
    rw [mergeTwoMaps_cons_old M rest k v w hw, hmw, updateAssoc_self M k w hw]
    exact ih (fun kv hkv => h kv (List.mem_cons_of_mem _ hkv))

theorem mergeTwoMaps_ne_nil (m2 : Record) :
    ∀ m1, m1 ≠ [] → mergeTwoMaps m1 m2 ≠ [] := by
  induction m2 with
  | nil => intro m1 h; rw [mergeTwoMaps_nil]; exact h
  | cons kv rest ih =>
    intro m1 h
    obtain ⟨k, v⟩ := kv
    cases hl : lookupAssoc m1 k with
    | none =>
      rw [mergeTwoMaps_cons_new m1 rest k v hl]
      exact ih _ (by simp)
    | some old =>
      rw [mergeTwoMaps_cons_old m1 rest k v old hl]
      exact ih _ (updateAssoc_ne_nil m1 k _ h)

theorem lookupAssoc_mergeTwoMaps_none (m2 : Record) (k : String) :
    ∀ m1, lookupAssoc m1 k = none → lookupAssoc m2 k = none →
      lookupAssoc (mergeTwoMaps m1 m2) k = none := by
  induction m2 with
  | nil => intro m1 h1 _; rw [mergeTwoMaps_nil]; exact h1
  | cons kv rest ih =>
    intro m1 h1 h2
    obtain ⟨k0, v0⟩ := kv
    have hk0 : k0 ≠ k := by
      intro hc
      rw [lookupAssoc, if_pos hc] at h2
      exact Option.noConfusion h2
    rw [lookupAssoc, if_neg hk0] at h2
    cases hl : lookupAssoc m1 k0 with
    | none =>
      rw [mergeTwoMaps_cons_new m1 rest k0 v0 hl]
      refine ih _ ?_ h2
      rw [lookupAssoc_append, h1]
      rw [lookupAssoc, if_neg hk0]
      rfl
    | some old =>
      rw [mergeTwoMaps_cons_old m1 rest k0 v0 old hl]
      refine ih _ ?_ h2
      rw [lookupAssoc_update_ne m1 k0 _ k hk0]
      exact h1

/-! ## Well-formedness and normality elimination -/

theorem wfVals_lookup (m : Record) (k : String) (v : Value)
    (h : wfVals m = true) (hl : lookupAssoc m k = some v) :
    wfValue v = true := by
  induction m with
  | nil => simp [lookupAssoc] at hl
  | cons kv rest ih =>
    obtain ⟨k0, v0⟩ := kv
    rw [wfVals] at h
    simp only [Bool.and_eq_true] at h
    by_cases hk : k0 = k
    · rw [lookupAssoc, if_pos hk] at hl
      injection hl with h'
      rw [← h']
      exact h.1
    · rw [lookupAssoc, if_neg hk] at hl
      exact ih h.2 hl

theorem normalVals_mem (m : Record) (kv : String × Value)
    (h : normalVals m = true) (hm : kv ∈ m) : normalValue kv.2 = true := by
  induction m with
  | nil => simp at hm
  | cons kv0 rest ih =>
    obtain ⟨k0, v0⟩ := kv0
    rw [normalVals] at h
    simp only [Bool.and_eq_true] at h
    rcases List.mem_cons.mp hm with heq | hmem
    · rw [heq]
      exact h.1
    · exact ih h.2 hmem

theorem isListV_elim (a : Value) (h : isListV a = true) :
    ∃ xs, a = .vlist xs := by
  cases a <;> simp_all [isListV]

theorem isMapV_elim (a : Value) (h : isMapV a = true) :
    ∃ m, a = .vmap m := by
  cases a <;> simp_all [isMapV]

/-! ## Re-merging an already-incorporated normal value is the identity -/

mutual

theorem mergeValues_self (v : Value) (hv : normalValue v = true) :
    mergeValues v v = v := by
  by_cases he : isEmptyV (normalizeV v) = true
  · rw [mergeValues_empty v v he]
    exact normalizeV_of_normal v hv
  · rw [Bool.not_eq_true] at he
    cases v with
    | vlist xs =>
      have hxs : xs ≠ [] := by simpa [normalizeV, isEmptyV] using he
      rw [mergeValues_lists xs xs hxs]
      have hd : dedupe xs = xs := by
        rw [normalValue] at hv
        simpa using hv
      rw [dedupe_self_append xs hd]
    | vmap m =>
      have hm : m ≠ [] := by simpa [normalizeV, isEmptyV] using he
      rw [mergeValues_maps m m hm]
      rw [normalValue] at hv
      simp only [Bool.and_eq_true] at hv
      have hfix := mergeTwoMaps_fixed m m (fun kv hkv =>
        ⟨kv.2, lookupAssoc_of_mem_nodup m kv.1 kv.2 hv.1 hkv,
          mergeValues_self kv.2 (normalVals_mem m kv hv.2 hkv)⟩)
      rw [hfix]
    | vnull => simp [normalizeV, isEmptyV] at he
    | vbool b =>
      rw [mergeValues_default _ _ he (by simp [isListV]) (by simp [isMapV])]
      rfl
    | vint n =>
      rw [mergeValues_default _ _ he (by simp [isListV]) (by simp [isMapV])]
      rfl
    | vstr s =>
      rw [mergeValues_default _ _ he (by simp [isListV]) (by simp [isMapV])]
      exact normalizeV_of_normal _ hv
termination_by (sizeOf v, 0)
decreasing_by
  all_goals
    first
    | exact Prod.Lex.right _ (by omega)
    | (subst_vars
       apply Prod.Lex.left
       have h1 := List.sizeOf_lt_of_mem hkv
       cases kv with
       | mk k w =>
         simp only [Prod.mk.sizeOf_spec] at h1
         simp only [Value.vmap.sizeOf_spec]
         omega)

theorem mergeValues_absorb (v : Value) (hv : normalValue v = true)
    (a : Value) (ha : wfValue a = true) :
    mergeValues (mergeValues a v) v = mergeValues a v := by
  by_cases he : isEmptyV (normalizeV a) = true
  · rw [mergeValues_empty a v he, normalizeV_of_normal v hv]
    exact mergeValues_self v hv
  · rw [Bool.not_eq_true] at he
    by_cases hll : isListV a = true ∧ isListV v = true
    · obtain ⟨xs, rfl⟩ := isListV_elim a hll.1
      obtain ⟨ys, rfl⟩ := isListV_elim v hll.2
      have hxs : xs ≠ [] := by simpa [normalizeV, isEmptyV] using he
      rw [mergeValues_lists xs ys hxs]
      rw [mergeValues_lists _ ys (dedupe_append_ne_nil xs ys hxs)]
      rw [dedupe_dedupe_append xs ys]
    · by_cases hmm : isMapV a = true ∧ isMapV v = true
      · obtain ⟨m1, rfl⟩ := isMapV_elim a hmm.1
        obtain ⟨m2, rfl⟩ := isMapV_elim v hmm.2
        have hm1 : m1 ≠ [] := by simpa [normalizeV, isEmptyV] using he
        rw [mergeValues_maps m1 m2 hm1]
        rw [mergeValues_maps _ m2 (mergeTwoMaps_ne_nil m2 m1 hm1)]
        rw [normalValue] at hv
        rw [wfValue] at ha
        simp only [Bool.and_eq_true] at hv ha
        have hfix := mergeTwoMaps_fixed m2 (mergeTwoMaps m1 m2)
          (fun kv hkv => by
            have hv' : normalValue kv.2 = true := normalVals_mem m2 kv hv.2 hkv
            have hlook := lookupAssoc_mergeTwoMaps_mem m2 hv.1 kv.1 kv.2
              (by cases kv; exact hkv) m1
            cases hl : lookupAssoc m1 kv.1 with
            | none =>
              rw [hl] at hlook
              exact ⟨kv.2, hlook, mergeValues_self kv.2 hv'⟩
            | some old =>
              rw [hl] at hlook
              exact ⟨mergeValues old kv.2, hlook,
                mergeValues_absorb kv.2 hv' old (wfVals_lookup m1 kv.1 old ha.2 hl)⟩)
        rw [hfix]
      · rw [mergeValues_default a v he hll hmm]
        rw [mergeValues_default (normalizeV a) v
          (by rw [normalizeV_idem]; exact he)
          (by rw [isListV_normalizeV]; exact hll)
          (by rw [isMapV_normalizeV]; exact hmm)]
        exact normalizeV_idem a
termination_by (sizeOf v, 1)
decreasing_by
  all_goals
    first
    | exact Prod.Lex.right _ (by omega)
    | (subst_vars
       apply Prod.Lex.left
       have h1 := List.sizeOf_lt_of_mem hkv
       cases kv with
       | mk k w =>
         simp only [Prod.mk.sizeOf_spec] at h1
         simp only [Value.vmap.sizeOf_spec]
         omega)

end

/-- Folding a second copy of a normal record `B` into `mergeTwoMaps A B`
changes nothing. -/
theorem mergeTwoMaps_absorb (A B : Record) (hA : wfVals A = true)
    (hBnd : keysNodupB B = true) (hBn : normalVals B = true) :
    mergeTwoMaps (mergeTwoMaps A B) B = mergeTwoMaps A B := by
  refine mergeTwoMaps_fixed B (mergeTwoMaps A B) (fun kv hkv => ?_)
  have hv : normalValue kv.2 = true := normalVals_mem B kv hBn hkv
  have hlook := lookupAssoc_mergeTwoMaps_mem B hBnd kv.1 kv.2
    (by cases kv; exact hkv) A
  cases hl : lookupAssoc A kv.1 with
  | none =>
    rw [hl] at hlook
    exact ⟨kv.2, hlook, mergeValues_self kv.2 hv⟩
  | some old =>
    rw [hl] at hlook
    exact ⟨mergeValues old kv.2, hlook,
      mergeValues_absorb kv.2 hv old (wfVals_lookup A kv.1 old hA hl)⟩

/-! ## Window-planner facts -/

theorem planFrom_nil (start P W : Nat) (h : ¬(start < P ∧ 0 < W)) :
    planFrom start P W = [] := by
  rw [planFrom]
  simp [h]

theorem planFrom_cons (start P W : Nat) (h : start < P ∧ 0 < W) :
    planFrom start P W
      = (start, min (start + W) P) :: planFrom (start + W) P W := by
  rw [planFrom]
  simp [h]

theorem mem_planFrom (P W : Nat) (hW : 0 < W) (start : Nat) (w : Nat × Nat)
    (hw : w ∈ planFrom start P W) :
    start ≤ w.1 ∧ w.1 < P ∧ w.2 = min (w.1 + W) P := by
  by_cases h : start < P
  · rw [planFrom_cons start P W ⟨h, hW⟩] at hw
    rcases List.mem_cons.mp hw with rfl | hw'
    · exact ⟨le_refl _, h, rfl⟩
    · have hrec := mem_planFrom P W hW (start + W) w hw'
      exact ⟨by omega, hrec.2.1, hrec.2.2⟩
  · rw [planFrom_nil start P W (by omega)] at hw
    simp at hw
termination_by P - start
decreasing_by omega

theorem planFrom_covers (P W : Nat) (hW : 0 < W) (start p : Nat) :
    (∃ w ∈ planFrom start P W, w.1 ≤ p ∧ p < w.2) ↔ (start ≤ p ∧ p < P) := by
  by_cases h : start < P
  · rw [planFrom_cons start P W ⟨h, hW⟩]
    constructor
    · rintro ⟨w, hw, h1, h2⟩
      rcases List.mem_cons.mp hw with rfl | hw'
      · simp only at h1 h2
        omega
      · have hrec := (planFrom_covers P W hW (start + W) p).mp ⟨w, hw', h1, h2⟩
        omega
    · rintro ⟨h1, h2⟩
      by_cases hp : p < start + W
      · refine ⟨(start, min (start + W) P), List.mem_cons_self _ _, ?_, ?_⟩
        · exact h1
        · simp only
          omega
      · obtain ⟨w, hw, hx⟩ :=
          (planFrom_covers P W hW (start + W) p).mpr ⟨by omega, h2⟩
        exact ⟨w, List.mem_cons_of_mem _ hw, hx⟩
  · rw [planFrom_nil start P W (by omega)]
    simp only [List.not_mem_nil, false_and, exists_const, exists_false, false_iff]
    omega
termination_by P - start
decreasing_by all_goals omega

theorem planFrom_pairwise (P W : Nat) (hW : 0 < W) (start : Nat) :
    List.Pairwise (fun a b => a.1 < b.1 ∧ a.2 ≤ b.1) (planFrom start P W) := by
  by_cases h : start < P
  · rw [planFrom_cons start P W ⟨h, hW⟩]
    refine List.Pairwise.cons (fun w hw => ?_) (planFrom_pairwise P W hW (start + W))
    obtain ⟨h1, h2, h3⟩ := mem_planFrom P W hW (start + W) w hw
    constructor
    · simp only
      omega
    · simp only
      omega
  · rw [planFrom_nil start P W (by omega)]
    exact List.Pairwise.nil
termination_by P - start
decreasing_by omega

theorem planFrom_formula (P W : Nat) (hW : 0 < W) (start : Nat) :
    planFrom start P W = (List.range ((P - start + W - 1) / W)).map
      (fun i => (start + i * W, min (start + i * W + W) P)) := by
  by_cases h : start < P
  · rw [planFrom_cons start P W ⟨h, hW⟩, planFrom_formula P W hW (start + W)]
    have hcount : (P - start + W - 1) / W = (P - (start + W) + W - 1) / W + 1 := by
      rcases le_or_lt (P - start) W with hle | hlt
      · have e1 : P - (start + W) = 0 := by omega
        have e2 : P - start + W - 1 = (P - start - 1) + W := by omega
        rw [e1, e2, Nat.add_div_right _ hW]
        have e3 : (P - start - 1) / W = 0 := Nat.div_eq_of_lt (by omega)
        have e4 : (0 + W - 1) / W = 0 := Nat.div_eq_of_lt (by omega)
        rw [e3, e4]
      · have e2 : P - start + W - 1 = (P - (start + W) + W - 1) + W := by omega
        rw [e2, Nat.add_div_right _ hW]
    rw [hcount, List.range_succ_eq_map, List.map_cons, List.map_map]
    congr 1
    · simp
    · refine List.map_congr_left (fun i _ => ?_)
      have hmul : start + (i + 1) * W = start + W + i * W := by ring
      simp only [Function.comp]
      rw [hmul]
  · rw [planFrom_nil start P W (by omega)]
    have e1 : (P - start + W - 1) / W = 0 := Nat.div_eq_of_lt (by omega)
    rw [e1]
    simp
termination_by P - start
decreasing_by omega

theorem planWindows_valid (P W : Nat) (hW : 0 < W) (w : Nat × Nat)
    (hw : w ∈ planWindows P W) : w.1 < w.2 ∧ w.2 ≤ P := by
  obtain ⟨h1, h2, h3⟩ := mem_planFrom P W hW 0 w hw
  omega

/-! ## Stable-sort and dict-pipeline facts -/

theorem insertSorted_mem (r : Record) (l : List Record) (x : Record) :
    x ∈ insertSorted r l ↔ x = r ∨ x ∈ l := by
  induction l with
  | nil => simp [insertSorted]
  | cons a t ih =>
    rw [insertSorted]
    by_cases h : chunkStartKey r < chunkStartKey a
    · rw [if_pos h]
      simp only [List.mem_cons]
    · rw [if_neg h]
      simp only [List.mem_cons, ih]
      tauto

theorem sortByStart_mem (l : List Record) (x : Record) :
    x ∈ sortByStart l ↔ x ∈ l := by
  have haux : ∀ (l acc : List Record),
      x ∈ List.foldl (fun acc r => insertSorted r acc) acc l
        ↔ x ∈ acc ∨ x ∈ l := by
    intro l
    induction l with
    | nil => intro acc; simp
    | cons a t ih =>
      intro acc
      rw [List.foldl_cons, ih, insertSorted_mem]
      simp only [List.mem_cons]
      tauto
  rw [sortByStart, haux]
  simp

theorem lookupAssoc_none_forall (m : Record) (k : String)
    (h : lookupAssoc m k = none) : ∀ kv ∈ m, kv.1 ≠ k := by
  induction m with
  | nil => simp
  | cons kv0 rest ih =>
    obtain ⟨k0, v0⟩ := kv0
    intro kv hkv
    by_cases hk : k0 = k
    · rw [lookupAssoc, if_pos hk] at h
      exact Option.noConfusion h
    · rw [lookupAssoc, if_neg hk] at h
      rcases List.mem_cons.mp hkv with rfl | hm
      · exact hk
      · exact ih h kv hm

theorem lookupAssoc_dictInsert_self (m : Record) (k : String) (v : Value) :
    lookupAssoc (dictInsert m k v) k = some v := by
  rw [dictInsert]
  by_cases h : (lookupAssoc m k).isSome
  · rw [if_pos h]
    exact lookupAssoc_update_self m k v h
  · rw [if_neg h]
    rw [lookupAssoc_append]
    cases hl : lookupAssoc m k with
    | none => rw [lookupAssoc, if_pos rfl]; rfl
    | some w => rw [hl] at h; simp at h

theorem lookupAssoc_dictInsert_ne (m : Record) (k : String) (v : Value)
    (k' : String) (h : k ≠ k') :
    lookupAssoc (dictInsert m k v) k' = lookupAssoc m k' := by
  rw [dictInsert]
  by_cases hs : (lookupAssoc m k).isSome
  · rw [if_pos hs]
    exact lookupAssoc_update_ne m k v k' h
  · rw [if_neg hs, lookupAssoc_append, lookupAssoc, if_neg h]
    cases lookupAssoc m k' <;> rfl

theorem lookupAssoc_foldl_dictInsert_none (row : Record) (key : String) :
    ∀ acc, lookupAssoc acc key = none → (∀ kv ∈ row, kv.1 ≠ key) →
      lookupAssoc
        (row.foldl (fun acc kv => dictInsert acc kv.1 kv.2) acc) key = none := by
  induction row with
  | nil => intro acc h _; exact h
  | cons kv0 rest ih =>
    intro acc h hne
    rw [List.foldl_cons]
    refine ih _ ?_ (fun kv hkv => hne kv (List.mem_cons_of_mem _ hkv))
    rw [lookupAssoc_dictInsert_ne _ _ _ _ (hne kv0 (List.mem_cons_self _ _))]
    exact h

theorem lookupAssoc_chunkDict_none (start : Nat) (row : Record) (key : String)
    (h1 : key ≠ "__chunk_start__") (h2 : lookupAssoc row key = none) :
    lookupAssoc (chunkDict start row) key = none := by
  rw [chunkDict]
  refine lookupAssoc_foldl_dictInsert_none row key _ ?_
    (lookupAssoc_none_forall row key h2)
  rw [lookupAssoc, if_neg (fun hc => h1 hc.symm)]
  rfl

theorem lookupAssoc_stripChunkKey (r : Record) (k : String)
    (h : k ≠ "__chunk_start__") :
    lookupAssoc (stripChunkKey r) k = lookupAssoc r k := by
  induction r with
  | nil => rfl
  | cons kv0 rest ih =>
    obtain ⟨k0, v0⟩ := kv0
    rw [stripChunkKey] at ih ⊢
    rw [List.filter_cons]
    by_cases hk0 : k0 = "__chunk_start__"
    · rw [if_neg (by simp [hk0])]
      rw [ih]
      rw [lookupAssoc, if_neg (by rw [hk0]; exact fun hc => h hc.symm)]
    · rw [if_pos (by simp [hk0])]
      rw [lookupAssoc, lookupAssoc]
      by_cases hk : k0 = k
      · rw [if_pos hk, if_pos hk]
      · rw [if_neg hk, if_neg hk]
        exact ih

theorem merge_multiple_dicts_none (ds : List Record) (key : String)
    (h : ∀ d ∈ ds, lookupAssoc d key = none) :
    lookupAssoc (merge_multiple_dicts ds) key = none := by
  have haux : ∀ (l : List Record) (acc : Record),
      lookupAssoc acc key = none → (∀ d ∈ l, lookupAssoc d key = none) →
      lookupAssoc (l.foldl mergeTwoMaps acc) key = none := by
    intro l
    induction l with
    | nil => intro acc h1 _; exact h1
    | cons d rest ih =>
      intro acc h1 h2
      rw [List.foldl_cons]
      refine ih _ ?_ (fun d' hd' => h2 d' (List.mem_cons_of_mem _ hd'))
      exact lookupAssoc_mergeTwoMaps_none d key acc h1
        (h2 d (List.mem_cons_self _ _))
  cases ds with
  | nil => rfl
  | cons d rest =>
    rw [merge_multiple_dicts]
    exact haux rest d (h d (List.mem_cons_self _ _))
      (fun d' hd' => h d' (List.mem_cons_of_mem _ hd'))

/-! ## Claim theorems -/

/-- C1: for every `page_count ≥ 0` and `max_window_size ≥ 1` the window
loop yields the windows `(i*W, min (i*W + W) P)` for
`i = 0 … ceil(P/W) − 1`; they are nonempty, ordered by start, pairwise
disjoint, and their union is exactly `[0, P)`; `P = 20, W = 8` yields
`[0,8), [8,16), [16,20)`; and a document with `page_count = 0` returns
None (a no-op: no error and nothing to persist). -/
theorem C1_window_planner (P W : Nat) (hW : 1 ≤ W) :
    planWindows P W = (List.range ((P + W - 1) / W)).map
      (fun i => (i * W, min (i * W + W) P))
    ∧ List.Pairwise (fun a b => a.1 < b.1 ∧ a.2 ≤ b.1) (planWindows P W)
    ∧ (∀ w ∈ planWindows P W, w.1 < w.2 ∧ w.2 ≤ P)
    ∧ (∀ p : Nat, p < P ↔ ∃ w ∈ planWindows P W, w.1 ≤ p ∧ p < w.2)
    ∧ (P = 0 → planWindows P W = [])
    ∧ planWindows 20 8 = [(0, 8), (8, 16), (16, 20)]
    ∧ (∀ (fp : String) (ann : Nat → Option Record) (completion : List Nat),
        process_one_pdf 0 fp ann completion = .ok none) := by
  have hW0 : 0 < W := hW
  refine ⟨?_, ?_, ?_, ?_, ?_, ?_, ?_⟩
  · rw [planWindows, planFrom_formula P W hW0 0]
    have h0 : P - 0 = P := by omega
    rw [h0]
    refine List.map_congr_left (fun i _ => ?_)
    simp
  · exact planFrom_pairwise P W hW0 0
  · exact fun w hw => planWindows_valid P W hW0 w hw
  · intro p
    rw [planWindows]
    constructor
    · intro hp
      exact (planFrom_covers P W hW0 0 p).mpr ⟨Nat.zero_le p, hp⟩
    · intro hex
      exact ((planFrom_covers P W hW0 0 p).mp hex).2
  · intro hP
    rw [planWindows, planFrom_nil]
    omega
  · simp [planWindows, planFrom]
  · intro fp ann completion
    rfl

/-- C1 witness: the theorem applied at `page_count = 20`,
`max_window_size = 8`. -/
theorem C1_window_planner_witness :
    planWindows 20 8 = [(0, 8), (8, 16), (16, 20)] :=
  (C1_window_planner 20 8 (by decide)).2.2.2.2.2.1

/-- C2: when the two values for a shared key are not both lists and not
both dicts (in particular when both are scalars, and in every
mismatched-shape case), the merged value is the trimmed accumulator value
when it is non-empty and the trimmed incoming value when the accumulator
value is empty; `mergeTwoMaps` applies exactly this value-merge to a key
both records assign; concretely
`merge([{x:"foo"},{x:"bar"}]) = {x:"foo"}` and
`merge([{x:""},{x:"bar"}]) = {x:"bar"}`. -/
theorem C2_scalar_precedence (a b : Value)
    (h1 : ¬(isListV a = true ∧ isListV b = true))
    (h2 : ¬(isMapV a = true ∧ isMapV b = true)) :
    mergeValues a b
      = (if isEmptyV (normalizeV a) = true then normalizeV b else normalizeV a)
    ∧ (∀ (m1 m2 : Record) (k : String) (va vb : Value),
        keysNodupB m2 = true → lookupAssoc m1 k = some va → (k, vb) ∈ m2 →
        lookupAssoc (mergeTwoMaps m1 m2) k = some (mergeValues va vb))
    ∧ merge_multiple_dicts [[("x", .vstr "foo")], [("x", .vstr "bar")]]
        = [("x", .vstr "foo")]
    ∧ merge_multiple_dicts [[("x", .vstr "")], [("x", .vstr "bar")]]
        = [("x", .vstr "bar")] := by
  refine ⟨?_, ?_, ?_, ?_⟩
  · by_cases he : isEmptyV (normalizeV a) = true
    · rw [if_pos he]
      exact mergeValues_empty a b he
    · rw [if_neg he]
      rw [Bool.not_eq_true] at he
      exact mergeValues_default a b he h1 h2
  · intro m1 m2 k va vb hnd hl hm
    have hlk := lookupAssoc_mergeTwoMaps_mem m2 hnd k vb hm m1
    rw [hl] at hlk
    exact hlk
  · simp [merge_multiple_dicts, mergeTwoMaps, mergeValues, lookupAssoc,
      updateAssoc, normalizeV, isEmptyV, pyStrip, isPySpace]
  · simp [merge_multiple_dicts, mergeTwoMaps, mergeValues, lookupAssoc,
      updateAssoc, normalizeV, isEmptyV, pyStrip, isPySpace]

/-- C2 witness: the theorem applied to the scalars "foo" and "bar". -/
theorem C2_scalar_precedence_witness :
    mergeValues (.vstr "foo") (.vstr "bar")
      = (if isEmptyV (normalizeV (.vstr "foo")) = true
          then normalizeV (.vstr "bar") else normalizeV (.vstr "foo")) :=
  (C2_scalar_precedence (.vstr "foo") (.vstr "bar")
    (by simp [isListV]) (by simp [isMapV])).1

/-- C5 counterexample: the claim `merge([A,B]) = merge([A,B,B])` fails at
`A = {}`, `B = {"x": " a "}`: the first fold stores the untrimmed string,
and re-folding B trims it. -/
theorem C5_counterexample :
    merge_multiple_dicts [[], [("x", .vstr " a ")], [("x", .vstr " a ")]]
      ≠ merge_multiple_dicts [[], [("x", .vstr " a ")]] := by
  simp [merge_multiple_dicts, mergeTwoMaps, mergeValues, lookupAssoc,
    updateAssoc, normalizeV, isEmptyV, pyStrip, isPySpace]

/-- C5 amended: `merge([A,B,B]) = merge([A,B])` holds when `A` and `B`
are well-formed records (duplicate-free keys, as Python dicts are) and
every value of `B` is already normalized: strings trimmed, lists
duplicate-free, and nested dicts duplicate-free with normalized values. -/
theorem C5_merge_idempotent_amended (A B : Record)
    (hA1 : keysNodupB A = true) (hA2 : wfVals A = true)
    (hB1 : keysNodupB B = true) (hB2 : normalVals B = true) :
    merge_multiple_dicts [A, B, B] = merge_multiple_dicts [A, B] := by
  rw [merge_multiple_dicts, merge_multiple_dicts]
  simp only [List.foldl_cons, List.foldl_nil]
  exact mergeTwoMaps_absorb A B hA2 hB1 hB2

/-- C5 witness: the amended theorem applied to
`A = {"x": "foo"}`, `B = {"x": "bar", "y": ["a"]}`. -/
theorem C5_merge_idempotent_witness :
    merge_multiple_dicts
        [[("x", .vstr "foo")], [("x", .vstr "bar"), ("y", .vlist [.vstr "a"])],
          [("x", .vstr "bar"), ("y", .vlist [.vstr "a"])]]
      = merge_multiple_dicts
        [[("x", .vstr "foo")], [("x", .vstr "bar"), ("y", .vlist [.vstr "a"])]] :=
  C5_merge_idempotent_amended _ _
    (by simp [keysNodupB])
    (by simp [wfVals, wfValue])
    (by simp [keysNodupB])
    (by simp [normalVals, normalValue, pyStrip, isPySpace, dedupe, dedupeAux])

/-- C6 counterexample: the claim that a shared list-valued key always
merges to the duplicate-free union fails when the accumulator list is
empty: `merge_values([], ["b","b"])` returns `["b","b"]` unchanged, not
the deduplicated `["b"]`. -/
theorem C6_counterexample :
    mergeValues (.vlist []) (.vlist [.vstr "b", .vstr "b"])
      ≠ .vlist (dedupe ([] ++ [.vstr "b", .vstr "b"])) := by
  simp [mergeValues, normalizeV, isEmptyV, dedupe, dedupeAux]

/-- C6 amended: when the accumulator's list is non-empty, two list values
merge to their concatenation with duplicates removed keeping the first
occurrence; when the accumulator's list is empty, the incoming list is
taken as-is (its internal duplicates survive); concretely
`merge([{y:["a","b"]},{y:["b","c"]}]) = {y:["a","b","c"]}`. -/
theorem C6_list_union_amended (xs ys : List Value) (hxs : xs ≠ []) :
    mergeValues (.vlist xs) (.vlist ys) = .vlist (dedupe (xs ++ ys))
    ∧ mergeValues (.vlist []) (.vlist ys) = .vlist ys
    ∧ merge_multiple_dicts
        [[("y", .vlist [.vstr "a", .vstr "b"])],
          [("y", .vlist [.vstr "b", .vstr "c"])]]
      = [("y", .vlist [.vstr "a", .vstr "b", .vstr "c"])] := by
  refine ⟨mergeValues_lists xs ys hxs, ?_, ?_⟩
  · rw [mergeValues_empty]
    · rfl
    · rfl
  · simp [merge_multiple_dicts, mergeTwoMaps, mergeValues, lookupAssoc,
      updateAssoc, normalizeV, isEmptyV, dedupe, dedupeAux]

/-- C6 witness: the amended theorem applied to `xs = ["a"]`,
`ys = ["b"]`. -/
theorem C6_list_union_witness :
    mergeValues (.vlist [.vstr "a"]) (.vlist [.vstr "b"])
      = .vlist (dedupe ([.vstr "a"] ++ [.vstr "b"])) :=
  (C6_list_union_amended [.vstr "a"] [.vstr "b"] (by simp)).1

/-- C3: window-failure handling at concrete inputs.  A document with a
single window (5 pages) whose annotation call fails makes
`process_one_pdf` raise an AttributeError (`None.items()`), aborting the
document instead of treating the window as contributing nothing; a
two-window document (16 pages) whose every window fails still returns a
merged record containing only `__source_file__`, which the main loop then
persists; only the partial-failure case behaves as the claim states. -/
theorem C3_failure_handling :
    process_one_pdf 5 "fp" (fun _ => none) [0]
      = .error "AttributeError: NoneType object has no attribute items"
    ∧ process_one_pdf 16 "fp" (fun _ => none) [0, 8]
      = .ok (some [("__source_file__", .vstr "fp")])
    ∧ process_one_pdf 16 "fp"
        (fun s => if s = 0 then none else some [("x", .vstr "v")]) [0, 8]
      = .ok (some [("x", .vstr "v"), ("__source_file__", .vstr "fp")]) := by
  refine ⟨?_, ?_, ?_⟩
  · simp [process_one_pdf, process_one_pdf_chunk, MAX_PAGES_PER_REQ]
  · simp [process_one_pdf, process_one_pdf_chunk, MAX_PAGES_PER_REQ,
      sortByStart, stripChunkKey, merge_multiple_dicts, dictInsert,
      lookupAssoc]
  · simp [process_one_pdf, process_one_pdf_chunk, MAX_PAGES_PER_REQ,
      sortByStart, stripChunkKey, merge_multiple_dicts, dictInsert,
      lookupAssoc, chunkDict, insertSorted, chunkStartKey, updateAssoc,
      mergeTwoMaps, mergeValues, normalizeV, isEmptyV, pyStrip, isPySpace]

/-- C7 counterexample: a service that is rate-limited on attempts 1 and 2
and succeeds on attempt 3 produces exactly 3 attempts with backoff delays
`[4, 4]` — bounded case, but not strictly increasing. -/
theorem C7_counterexample :
    getAnnotationSync
        (fun n => if n < 3 then ServiceStep.exn true else ServiceStep.ok 7)
      = (3, [4, 4], .ok (some 7))
    ∧ ¬ List.Chain' (fun a b : Nat => a < b) [4, 4] := by
  constructor
  · simp [getAnnotationSync, retryFrom, waitExponential]
  · simp

/-- C7 amended: only rate-limit errors are retried (a permanent error
returns the sentinel None after exactly 1 attempt); a service failing
twice with rate limits then succeeding makes exactly 3 attempts with the
delays `wait_exponential(multiplier=1, min=4, max=60)` prescribes, which
are `[4, 4]` — non-decreasing and clamped to `[4, 60]`, strictly growing
only once `2^n` exceeds the floor; five rate-limit failures exhaust
`stop_after_attempt(5)` with delays `[4, 4, 8, 16]` and re-raise to the
caller. -/
theorem C7_retry_amended :
    (∀ (α : Type) (b : Nat → ServiceStep α), b 1 = .exn false →
        getAnnotationSync b = (1, [], .ok none))
    ∧ (∀ (α : Type) (b : Nat → ServiceStep α) (r : α),
        b 1 = .exn true → b 2 = .exn true → b 3 = .ok r →
        getAnnotationSync b
          = (3, [waitExponential 1 4 60 1, waitExponential 1 4 60 2],
              .ok (some r))
        ∧ [waitExponential 1 4 60 1, waitExponential 1 4 60 2] = [4, 4])
    ∧ (∀ (α : Type) (b : Nat → ServiceStep α),
        (∀ n, 1 ≤ n → n ≤ 5 → b n = .exn true) →
        getAnnotationSync b = (5, [4, 4, 8, 16], .error ()))
    ∧ (∀ n : Nat, 4 ≤ waitExponential 1 4 60 n ∧ waitExponential 1 4 60 n ≤ 60)
    ∧ (∀ n m : Nat, n ≤ m →
        waitExponential 1 4 60 n ≤ waitExponential 1 4 60 m) := by
  refine ⟨?_, ?_, ?_, ?_, ?_⟩
  · intro α b hb
    simp [getAnnotationSync, retryFrom, hb]
  · intro α b r h1 h2 h3
    constructor
    · simp [getAnnotationSync, retryFrom, h1, h2, h3]
    · simp [waitExponential]
  · intro α b hb
    have e1 := hb 1 (by omega) (by omega)
    have e2 := hb 2 (by omega) (by omega)
    have e3 := hb 3 (by omega) (by omega)
    have e4 := hb 4 (by omega) (by omega)
    have e5 := hb 5 (by omega) (by omega)
    simp [getAnnotationSync, retryFrom, e1, e2, e3, e4, e5, waitExponential]
  · intro n
    constructor
    · simp only [waitExponential]
      omega
    · simp only [waitExponential]
      omega
  · intro n m hnm
    simp only [waitExponential]
    have hp : 2 ^ n ≤ 2 ^ m := Nat.pow_le_pow_right (by omega) hnm
    omega

/-- C7 witness: the permanent-error clause of the amended theorem applied
to a concrete service behaviour. -/
theorem C7_retry_witness :
    getAnnotationSync (fun _ => (ServiceStep.exn false : ServiceStep Nat))
      = (1, [], .ok none) :=
  C7_retry_amended.1 Nat (fun _ => ServiceStep.exn false) rfl

/-- C8 counterexample: a value that fails to cast to the target type is
kept unchanged (best effort), not written as null: with a cast that always
fails, the `int` column survives under a `string` target field. -/
theorem C8_counterexample :
    tableCastLike (fun _ _ => none)
        [("x", (⟨AType.tint, [some 7]⟩ : Column Nat))] 1 [("x", AType.tstr)]
      = [("x", (⟨AType.tint, [some 7]⟩ : Column Nat))]
    ∧ [("x", (⟨AType.tint, [some 7]⟩ : Column Nat))]
        ≠ [("x", nullsCol Nat 1 AType.tstr)] := by
  constructor
  · rfl
  · simp [nullsCol]

/-- C8 amended: once established, the schema governs every later append:
the output columns are exactly the target fields in target order (extra
row keys are dropped and the schema is unchanged), target fields missing
from the row become all-null columns, fields whose target type is an
all-null type are forced to null columns, and a column whose cast fails is
passed through unchanged (best effort) rather than written as null;
`ParquetAppender.append` with an established schema appends exactly
`table_cast_like(row, schema)` and keeps the schema. -/
theorem C8_schema_coercion (α : Type)
    (castFn : Column α → AType → Option (Column α))
    (cols : List (String × Column α)) (n : Nat)
    (target : List (String × AType)) :
    (tableCastLike castFn cols n target).map Prod.fst = target.map Prod.fst
    ∧ (∀ fld ∈ target, lookupCol cols fld.1 = none →
        (fld.1, nullsCol α n fld.2) ∈ tableCastLike castFn cols n target)
    ∧ (∀ fld ∈ target, isNullType fld.2 = true →
        (fld.1, nullsCol α n fld.2) ∈ tableCastLike castFn cols n target)
    ∧ (∀ fld ∈ target, ∀ col, lookupCol cols fld.1 = some col →
        isNullType fld.2 = false → castFn col fld.2 = none →
        (fld.1, col) ∈ tableCastLike castFn cols n target)
    ∧ (∀ (st : PAState α) (s : List (String × AType))
          (row : List (String × Column α)) (m : Nat),
        st.schema = some s →
        paAppend castFn st row m
          = { schema := some s
              written := st.written ++ [tableCastLike castFn row m s] }) := by
  refine ⟨?_, ?_, ?_, ?_, ?_⟩
  · rw [tableCastLike, List.map_map]
    refine List.map_congr_left (fun fld _ => ?_)
    simp only [Function.comp]
    cases lookupCol cols fld.1 with
    | none => rfl
    | some col =>
      by_cases hn : isNullType fld.2 = true
      · simp [hn]
      · cases h : castFn col fld.2 <;> simp [hn, h]
  · intro fld hfld hnone
    rw [tableCastLike]
    refine List.mem_map.mpr ⟨fld, hfld, ?_⟩
    rw [hnone]
  · intro fld hfld hnull
    rw [tableCastLike]
    refine List.mem_map.mpr ⟨fld, hfld, ?_⟩
    cases lookupCol cols fld.1 with
    | none => rfl
    | some col => simp [hnull]
  · intro fld hfld col hcol hnn hcast
    rw [tableCastLike]
    refine List.mem_map.mpr ⟨fld, hfld, ?_⟩
    rw [hcol]
    simp [hnn, hcast]
  · intro st s row m hs
    rw [paAppend, hs]

/-- C8 witness: the missing-column clause of the amended theorem at a
concrete schema. -/
theorem C8_schema_coercion_witness :
    ("y", nullsCol Nat 1 AType.tint)
      ∈ tableCastLike (fun c _ => some c)
          [("x", (⟨AType.tint, [some 7]⟩ : Column Nat))] 1
          [("x", AType.tint), ("y", AType.tint)] :=
  (C8_schema_coercion Nat (fun c _ => some c)
      [("x", ⟨AType.tint, [some 7]⟩)] 1
      [("x", AType.tint), ("y", AType.tint)]).2.1
    ("y", AType.tint) (by simp) (by simp [lookupCol])

/-- C9 counterexample: a successfully processed two-window document whose
annotations are `{"x": "v"}` yields the record
`{"x": "v", "__source_file__": fingerprint}` — it carries the document
fingerprint but no `processed_at` (nor `__processed_at__`) field. -/
theorem C9_counterexample :
    process_one_pdf 16 "f" (fun _ => some [("x", .vstr "v")]) [0, 8]
      = .ok (some [("x", .vstr "v"), ("__source_file__", .vstr "f")])
    ∧ lookupAssoc [("x", .vstr "v"), ("__source_file__", .vstr "f")]
        "processed_at" = none
    ∧ lookupAssoc [("x", .vstr "v"), ("__source_file__", .vstr "f")]
        "__processed_at__" = none := by
  refine ⟨?_, ?_, ?_⟩
  · simp [process_one_pdf, process_one_pdf_chunk, MAX_PAGES_PER_REQ,
      sortByStart, stripChunkKey, merge_multiple_dicts, dictInsert,
      lookupAssoc, chunkDict, insertSorted, chunkStartKey, updateAssoc,
      mergeTwoMaps, mergeValues, normalizeV, isEmptyV, pyStrip, isPySpace]
  · rfl
  · rfl

/-- C9 amended: every merged record a document run returns carries exactly
one attached metadata field: `__source_file__`, bound to the document's
fingerprint after the fold; no `processed_at` field is attached — any key
(such as `processed_at`) absent from every annotation row is absent from
the final record. -/
theorem C9_source_identity (pages : Nat) (fp : String)
    (ann : Nat → Option Record) (completion : List Nat) (key : String)
    (r : Record)
    (hres : process_one_pdf pages fp ann completion = .ok (some r))
    (hk1 : key ≠ "__source_file__") (hk2 : key ≠ "__chunk_start__")
    (hann : ∀ s row, ann s = some row → lookupAssoc row key = none) :
    lookupAssoc r "__source_file__" = some (.vstr fp)
    ∧ lookupAssoc r key = none := by
  rw [process_one_pdf] at hres
  by_cases h0 : pages = 0
  · rw [if_pos h0] at hres
    exact absurd hres (by simp)
  · rw [if_neg h0] at hres
    by_cases hle : pages ≤ MAX_PAGES_PER_REQ
    · rw [if_pos hle] at hres
      cases hchunk : process_one_pdf_chunk 0 ann with
      | none =>
        rw [hchunk] at hres
        exact absurd hres (by simp)
      | some c =>
        rw [hchunk] at hres
        simp only [Except.ok.injEq, Option.some.injEq] at hres
        subst hres
        refine ⟨lookupAssoc_dictInsert_self _ _ _, ?_⟩
        rw [lookupAssoc_dictInsert_ne _ _ _ _ (fun hc => hk1 hc.symm)]
        rw [lookupAssoc_stripChunkKey _ _ hk2]
        rw [process_one_pdf_chunk] at hchunk
        cases hann0 : ann 0 with
        | none =>
          rw [hann0] at hchunk
          simp at hchunk
        | some row =>
          rw [hann0] at hchunk
          simp only [Option.map_some', Option.some.injEq] at hchunk
          rw [← hchunk]
          exact lookupAssoc_chunkDict_none 0 row key hk2 (hann 0 row hann0)
    · rw [if_neg hle] at hres
      simp only [Except.ok.injEq, Option.some.injEq] at hres
      subst hres
      refine ⟨lookupAssoc_dictInsert_self _ _ _, ?_⟩
      rw [lookupAssoc_dictInsert_ne _ _ _ _ (fun hc => hk1 hc.symm)]
      refine merge_multiple_dicts_none _ key (fun d hd => ?_)
      obtain ⟨d0, hd0, rfl⟩ := List.mem_map.mp hd
      rw [lookupAssoc_stripChunkKey _ _ hk2]
      have hd0' := (sortByStart_mem _ _).mp hd0
      obtain ⟨s, hs, hck⟩ := List.mem_filterMap.mp hd0'
      rw [process_one_pdf_chunk] at hck
      cases hanns : ann s with
      | none =>
        rw [hanns] at hck
        simp at hck
      | some row =>
        rw [hanns] at hck
        simp only [Option.map_some', Option.some.injEq] at hck
        rw [← hck]
        exact lookupAssoc_chunkDict_none s row key hk2 (hann s row hanns)

/-- C9 witness: the amended theorem applied to a concrete two-window run. -/
theorem C9_source_identity_witness :
    lookupAssoc [("x", .vstr "v"), ("__source_file__", .vstr "f")]
        "__source_file__" = some (.vstr "f")
    ∧ lookupAssoc [("x", .vstr "v"), ("__source_file__", .vstr "f")]
        "processed_at" = none :=
  C9_source_identity 16 "f" (fun _ => some [("x", .vstr "v")]) [0, 8]
    "processed_at" [("x", .vstr "v"), ("__source_file__", .vstr "f")]
    (by simp [process_one_pdf, process_one_pdf_chunk, MAX_PAGES_PER_REQ,
      sortByStart, stripChunkKey, merge_multiple_dicts, dictInsert,
      lookupAssoc, chunkDict, insertSorted, chunkStartKey, updateAssoc,
      mergeTwoMaps, mergeValues, normalizeV, isEmptyV, pyStrip, isPySpace])
    (by simp) (by simp)
    (fun s row h => by
      injection h with h2
      rw [← h2]
      rfl)

/-- C10: the page count used for window planning is the index of the
first page whose extracted text matches the references/bibliography/works-
cited heading regex; pages before it never match, and only when no page
matches is the physical page count used; every planned window lies
entirely below this count, so the heading page and everything after it is
never put in a window (and hence never submitted). -/
theorem C10_reference_cutoff (texts : List String) :
    get_pdf_page_count texts ≤ texts.length
    ∧ (∀ (i : Nat) (h : i < texts.length), i < get_pdf_page_count texts →
        refHeaderSearch (texts.get ⟨i, h⟩) = false)
    ∧ (∀ (i : Nat) (h : i < texts.length),
        refHeaderSearch (texts.get ⟨i, h⟩) = true →
        get_pdf_page_count texts ≤ i)
    ∧ ((∀ (i : Nat) (h : i < texts.length),
        refHeaderSearch (texts.get ⟨i, h⟩) = false) →
        get_pdf_page_count texts = texts.length)
    ∧ (∀ h : get_pdf_page_count texts < texts.length,
        refHeaderSearch (texts.get ⟨get_pdf_page_count texts, h⟩) = true)
    ∧ (∀ w ∈ planWindows (get_pdf_page_count texts) MAX_PAGES_PER_REQ,
        ∀ p, w.1 ≤ p → p < w.2 → p < get_pdf_page_count texts) := by
  refine ⟨List.findIdx_le_length _, ?_, ?_, ?_, ?_, ?_⟩
  · intro i h hlt
    have hfi := List.not_of_lt_findIdx hlt
    rw [List.get_eq_getElem]
    exact hfi
  · intro i h hp
    by_contra hcon
    push_neg at hcon
    have hfi := List.not_of_lt_findIdx hcon
    rw [List.get_eq_getElem] at hp
    rw [hp] at hfi
    exact absurd hfi (by simp)
  · intro hall
    refine le_antisymm (List.findIdx_le_length _) ?_
    by_contra hcon
    push_neg at hcon
    have hfi : refHeaderSearch (texts.get ⟨get_pdf_page_count texts, hcon⟩) = true :=
      @List.findIdx_get _ _ _ hcon
    have hfa := hall (get_pdf_page_count texts) hcon
    rw [hfa] at hfi
    exact absurd hfi (by simp)
  · intro h
    exact @List.findIdx_get _ _ _ h
  · intro w hw p hp1 hp2
    have hv := planWindows_valid (get_pdf_page_count texts)
      MAX_PAGES_PER_REQ (by decide) w hw
    omega

/-- C10 witness: the theorem applied to a three-page document whose
second page is a References heading. -/
theorem C10_reference_cutoff_witness :
    get_pdf_page_count ["Intro text", "  References  ", "tail"] ≤ 1 :=
  (C10_reference_cutoff ["Intro text", "  References  ", "tail"]).2.2.1
    1 (by decide) (by decide)

end OcrPipeline
